import Mathlib

/-!
Verification of the core pipeline of `jobfinder.py` (repository
serinpatel/Jobfinder): the freshness classifier, the dedup pass, the
paginated/broadened search collector, the resume matcher and the per-profile
ranking used by the digest builder.

Modelling conventions for the shallow embedding:
* Python floats are modelled as exact rationals (`ℚ`); the value
  `float("inf")` returned by the age parser is modelled as `⊤` in `WithTop ℚ`.
* Python strings are modelled as Lean `String`/`List Char`, with the ASCII
  fragment of `str.lower`, `str.strip` and the regex classes `\d`, `\s`.
* A SerpAPI job record (a dict with optional keys) is modelled as the
  structure `Job` of optional fields; `dict.get(k, default)` becomes
  `Option.getD`.
* The provider call `_serpapi_call` is an external black box: it is passed in
  as a function `String → ℕ → List Job` of the query string and the
  pagination offset (the page size argument is the constant 20 at the only
  call site).  `time.sleep` has no observable effect on the data flow and is
  dropped.
* The embedding model and `util.cos_sim` are black boxes: an encoding
  function `String → V` and a scoring function `V → V → ℚ`.  Batch encoding
  is itemwise (`model.encode` on a list is the pure per-item map).
-/

namespace Jobfinder

/-! ## Python string primitives (ASCII fragment) -/

/-- Characters of Python's `\s` class / `str.strip` default set (ASCII). -/
def pyIsSpace (c : Char) : Bool :=
  c = ' ' || c = '\t' || c = '\n' || c = '\r' || c = Char.ofNat 11 || c = Char.ofNat 12

/-- ASCII fragment of `str.lower` applied to one character. -/
def pyLowerChar (c : Char) : Char :=
  if 'A' ≤ c && c ≤ 'Z' then Char.ofNat (c.toNat + 32) else c

/-- Python `str.strip()` on a character list: drop whitespace at both ends. -/
def pyStrip (cs : List Char) : List Char :=
  ((cs.dropWhile pyIsSpace).reverse.dropWhile pyIsSpace).reverse

/-- Python `str.strip()` on a `String`. -/
def pyStripStr (s : String) : String :=
  String.mk (pyStrip s.toList)

/-- Python's substring test `needle in hay` on character lists. -/
def containsSeq (needle : List Char) : List Char → Bool
  | [] => needle.isEmpty
  | c :: cs => List.isPrefixOf needle (c :: cs) || containsSeq needle cs

/-! ## FreshnessClassifier: `_parse_age_hours` (src/jobfinder.py lines 51-72) -/

/-- Time units of the regex `(\d+)\s*(minute|minutes|hour|hours|day|days)`.
Because the alternation tries the singular alternatives first and nothing
follows the group, group 2 is always one of the three singular words. -/
inductive TimeUnit where
  | minute
  | hour
  | day
deriving DecidableEq, Repr

/-- First alternative of `minute|minutes|hour|hours|day|days` matching at the
head of the character list (the plural alternatives never win, their
singular form is tried first and also matches). -/
def unitAtHead (cs : List Char) : Option TimeUnit :=
  if List.isPrefixOf "minute".toList cs then some TimeUnit.minute
  else if List.isPrefixOf "hour".toList cs then some TimeUnit.hour
  else if List.isPrefixOf "day".toList cs then some TimeUnit.day
  else none

/-- Numeric value of a run of decimal digits, as Python `int` reads it. -/
def digitsVal (ds : List Char) : ℕ :=
  ds.foldl (fun a c => 10 * a + (c.toNat - 48)) 0

/-- Embedding of `re.search(r"(\d+)\s*(minute|minutes|hour|hours|day|days)", t)`:
the leftmost position at which one or more digits, then optional whitespace,
then a unit word match; returns the digit run's value and the unit.
(Backtracking never helps this pattern: a unit word starts with a letter,
which is neither a digit nor whitespace, so the greedy scan is exact.) -/
def reSearchNumUnit : List Char → Option (ℕ × TimeUnit)
  | [] => none
  | c :: cs =>
    if c.isDigit then
      match unitAtHead (((c :: cs).dropWhile Char.isDigit).dropWhile pyIsSpace) with
      | some u => some (digitsVal ((c :: cs).takeWhile Char.isDigit), u)
      | none => reSearchNumUnit cs
    else reSearchNumUnit cs

/-- Embedding of `_parse_age_hours` (src/jobfinder.py lines 51-72): convert a
free-text age such as "3 hours ago" to an age in hours, `⊤` for unknown. -/
def parse_age_hours (text : String) : WithTop ℚ :=
  let t := pyStrip (text.toList.map pyLowerChar)
  if t = [] then ⊤
  else if containsSeq "just".toList t || containsSeq "today".toList t then
    ((0 : ℚ) : WithTop ℚ)
  else
    match reSearchNumUnit t with
    | none => ⊤
    | some (n, TimeUnit.minute) => (((n : ℚ) / 60 : ℚ) : WithTop ℚ)
    | some (n, TimeUnit.hour) => ((n : ℚ) : WithTop ℚ)
    | some (n, TimeUnit.day) => (((n * 24 : ℕ) : ℚ) : WithTop ℚ)

/-- The freshness classifier as the spec's §4.1/§8 rules word it (refinement
side for claim C2): infinity on empty normalized text, 0 when it contains
"just" or "today", otherwise the first integer-unit pattern converted with
minutes → n/60, hours → n, days → n·24, infinity when there is none. -/
def classify (text : String) : WithTop ℚ :=
  let t := pyStrip (text.toList.map pyLowerChar)
  if t = [] then ⊤
  else if containsSeq "just".toList t || containsSeq "today".toList t then
    ((0 : ℚ) : WithTop ℚ)
  else
    match reSearchNumUnit t with
    | some (n, TimeUnit.minute) => (((n : ℚ) / 60 : ℚ) : WithTop ℚ)
    | some (n, TimeUnit.hour) => ((n : ℚ) : WithTop ℚ)
    | some (n, TimeUnit.day) => (((n : ℚ) * 24 : ℚ) : WithTop ℚ)
    | none => ⊤

/-! ## Job records and `is_fresh` (src/jobfinder.py lines 74-82) -/

/-- A SerpAPI job record, restricted to the fields the pipeline reads.  The
two `detected_extensions` entries are inlined as `posted_at` and `posted`. -/
structure Job where
  title : Option String := none
  company_name : Option String := none
  location : Option String := none
  description : Option String := none
  posted_at : Option String := none
  posted : Option String := none
deriving DecidableEq, Repr

/-- Python `a or b` for an optional string against a string default: an
absent or empty (falsy) string falls through. -/
def pyOrStr (a : Option String) (els : String) : String :=
  match a with
  | some s => if s = "" then els else s
  | none => els

/-- The freshness text `str(det.get("posted_at") or det.get("posted") or "").strip()`. -/
def postedText (j : Job) : String :=
  pyStripStr (pyOrStr j.posted_at (pyOrStr j.posted ""))

/-- Embedding of `is_fresh` (src/jobfinder.py lines 74-82). -/
def is_fresh (j : Job) (max_hours : ℚ := 24) : Bool :=
  decide (parse_age_hours (postedText j) ≤ ((max_hours : ℚ) : WithTop ℚ))

/-! ## RecordDeduplicator (src/jobfinder.py lines 84-93) -/

/-- The dedup key `(j.get("title", "").strip(), j.get("company_name", "").strip(),
j.get("location", "").strip())`. -/
def dedupKey (j : Job) : String × String × String :=
  (pyStripStr (j.title.getD ""), pyStripStr (j.company_name.getD ""),
   pyStripStr (j.location.getD ""))

/-- Loop of `_dedup_by_title_company_location`: `seen` is the set of keys
already emitted (a list, used only through membership). -/
def dedupGo (seen : List (String × String × String)) : List Job → List Job
  | [] => []
  | j :: js =>
    if dedupKey j ∈ seen then dedupGo seen js
    else j :: dedupGo (dedupKey j :: seen) js

/-- Embedding of `_dedup_by_title_company_location` (src/jobfinder.py 84-93). -/
def dedup_by_title_company_location (jobs : List Job) : List Job :=
  dedupGo [] jobs

/-- Deduplication as the spec's §4.2 words it (refinement side for claim C4):
keep a posting exactly when its key did not appear among the earlier
postings of the input; `earlier` is the already-scanned input. -/
def keepFirstAux (earlier : List Job) : List Job → List Job
  | [] => []
  | j :: js =>
    if dedupKey j ∈ earlier.map dedupKey then keepFirstAux (earlier ++ [j]) js
    else j :: keepFirstAux (earlier ++ [j]) js

/-- First-seen deduplication stated from the spec (claim C4). -/
def keepFirstByKey (jobs : List Job) : List Job :=
  keepFirstAux [] jobs

/-! ## SearchCollector: `search_jobs_for_role` (src/jobfinder.py lines 109-155)

The provider `_serpapi_call` is abstracted as a function of the query string
and the pagination offset (it is called with the constant page size 20). -/

/-- Loop of lines 117-122: drop duplicate locations, keep order. -/
def dedupStringsGo (seen : List String) : List String → List String
  | [] => []
  | l :: ls =>
    if l ∈ seen then dedupStringsGo seen ls
    else l :: dedupStringsGo (l :: seen) ls

/-- Normalized location list (no duplicates, order kept). -/
def dedupStrings (locations : List String) : List String :=
  dedupStringsGo [] locations

/-- The collector's mutable state: the location list `locs`, the dict
`per_loc_start` (an insertion-ordered association list, as a Python dict),
the accumulated postings `collected` and the round counter `rounds`. -/
structure SearchState where
  locs : List String
  starts : List (String × ℕ)
  collected : List Job
  rounds : ℕ
deriving DecidableEq, Repr

/-- Read `per_loc_start[loc]` (the key is always present at the call sites;
a missing key would raise in Python, modelled by the irrelevant default 0). -/
def getStart (starts : List (String × ℕ)) (loc : String) : ℕ :=
  match starts.lookup loc with
  | some v => v
  | none => 0

/-- The update `per_loc_start[loc] += 20`. -/
def bumpStart (starts : List (String × ℕ)) (loc : String) : List (String × ℕ) :=
  starts.map (fun p => if p.1 = loc then (p.1, p.2 + 20) else p)

/-- The hard cap `hard_cap_rounds = 8` of line 127. -/
def hard_cap_rounds : ℕ := 8

/-- One `for loc in locs` pass (lines 131-143): query, advance the offset,
filter by `is_fresh` (default window), extend `collected`, and break out as
soon as `min_jobs` postings have accumulated. -/
def runRound (provider : String → ℕ → List Job) (role : String) (min_jobs : ℕ) :
    List String → SearchState → SearchState
  | [], st => st
  | loc :: rest, st =>
    let results := provider (role ++ " " ++ loc) (getStart st.starts loc)
    let st1 : SearchState := { st with starts := bumpStart st.starts loc }
    let fresh := results.filter (fun r => is_fresh r)
    let st2 : SearchState := { st1 with collected := st1.collected ++ fresh }
    if min_jobs ≤ st2.collected.length then st2
    else runRound provider role min_jobs rest st2

/-- Lines 148-152: after round 2, if a (truthy) broaden target was supplied
and is not a key of `per_loc_start`, register it and append it to `locs`. -/
def broadenStep (broaden_to_country : Option String) (st : SearchState) : SearchState :=
  match broaden_to_country with
  | none => st
  | some b =>
    if st.rounds = 2 && b ≠ "" then
      if b ∈ st.starts.map Prod.fst then st
      else { st with starts := st.starts ++ [(b, 0)], locs := st.locs ++ [b] }
    else st

/-- One iteration of the `while` body (lines 129-152).  The boolean is false
when the body hit the early `break` of lines 145-146 (the broaden step is
then skipped), true when the loop would test its condition again. -/
def searchStep (provider : String → ℕ → List Job) (role : String) (min_jobs : ℕ)
    (broaden_to_country : Option String) (st : SearchState) : SearchState × Bool :=
  let st1 : SearchState := { st with rounds := st.rounds + 1 }
  let st2 := runRound provider role min_jobs st1.locs st1
  if min_jobs ≤ st2.collected.length then (st2, false)
  else (broadenStep broaden_to_country st2, true)

/-- The `while len(collected) < min_jobs and rounds < hard_cap_rounds` loop,
written with fuel.  Because `rounds` grows by one each iteration and the
condition needs `rounds < hard_cap_rounds`, fuel `hard_cap_rounds` already
computes the loop's true result (proved as part of claim C1). -/
def searchLoop (provider : String → ℕ → List Job) (role : String) (min_jobs : ℕ)
    (broaden_to_country : Option String) : ℕ → SearchState → SearchState
  | 0, st => st
  | fuel + 1, st =>
    if st.collected.length < min_jobs ∧ st.rounds < hard_cap_rounds then
      let s := searchStep provider role min_jobs broaden_to_country st
      if s.2 then searchLoop provider role min_jobs broaden_to_country fuel s.1
      else s.1
    else st

/-- The state entering the loop (lines 117-127): locations normalized,
`per_loc_start = {loc: 0 for loc in locs}`, nothing collected, round 0. -/
def initState (locations : List String) : SearchState :=
  let locs := dedupStrings locations
  { locs := locs, starts := locs.map (fun l => (l, 0)), collected := [], rounds := 0 }

/-- The state at line 154: the collection loop run to completion (fuel
`hard_cap_rounds` computes the while loop's result, see claim C1). -/
def searchFinalState (provider : String → ℕ → List Job) (role : String)
    (locations : List String) (min_jobs : ℕ) (broaden_to_country : Option String) :
    SearchState :=
  searchLoop provider role min_jobs broaden_to_country hard_cap_rounds
    (initState locations)

/-- Embedding of `search_jobs_for_role` (src/jobfinder.py lines 109-155):
dedup the accumulated postings and return `collected[:max(min_jobs,
len(collected))]` (a slice that always keeps the whole list). -/
def search_jobs_for_role (provider : String → ℕ → List Job) (role : String)
    (locations : List String) (min_jobs : ℕ := 10)
    (broaden_to_country : Option String := none) : List Job :=
  let collected := dedup_by_title_company_location
    (searchFinalState provider role locations min_jobs broaden_to_country).collected
  collected.take (max min_jobs collected.length)

/-! ## Matching to resumes: `match_jobs_to_resumes` (src/jobfinder.py 158-179)

The module-level registry `resumes`/`resume_embeddings` (names and their
precomputed vectors) and the sentence-transformer are passed as parameters;
batch encoding is itemwise application of the pure encoder. -/

/-- The composite text of line 164:
`" ".join([title, company_name, description]).strip()`. -/
def compositeDesc (j : Job) : String :=
  pyStripStr (j.title.getD "" ++ " " ++ j.company_name.getD "" ++ " " ++ j.description.getD "")

/-- Append one scored pair to `matches[name]` (dict update through the
association list). -/
def appendScored (name : String) (entry : ℚ × Job) :
    List (String × List (ℚ × Job)) → List (String × List (ℚ × Job)) :=
  List.map (fun p => if p.1 = name then (p.1, p.2 ++ [entry]) else p)

/-- Embedding of `match_jobs_to_resumes` (src/jobfinder.py lines 158-179):
start from `{name: [] for name in resumes}`, keep the jobs with non-empty
composite text, and append `(cos_sim(resume_emb, job_emb), job)` to every
profile's list, job-major as the nested loops run.  (The early return on an
empty `job_refs` list coincides with folding over the empty list.) -/
def match_jobs_to_resumes {V : Type} (resume_names : List String)
    (resume_emb : String → V) (encode : String → V) (cos_sim : V → V → ℚ)
    (jobs : List Job) : List (String × List (ℚ × Job)) :=
  let matches0 := resume_names.map (fun n => (n, ([] : List (ℚ × Job))))
  let job_refs := jobs.filter (fun j => compositeDesc j ≠ "")
  job_refs.foldl
    (fun ms j =>
      resume_names.foldl
        (fun ms2 n => appendScored n (cos_sim (resume_emb n) (encode (compositeDesc j)), j) ms2)
        ms)
    matches0

/-! ## Ranking inside `build_email` (src/jobfinder.py lines 192-193) -/

/-- The per-profile ranking `sorted(job_list, key=lambda x: x[0], reverse=True)[:15]`:
a stable sort, descending by score, truncated to the top 15. -/
def topJobsForProfile (job_list : List (ℚ × Job)) : List (ℚ × Job) :=
  (job_list.mergeSort (fun a b => decide (b.1 ≤ a.1))).take 15

/-- The ranked lists `build_email` renders, one per profile in `matches`. -/
def build_email_ranked (match_lists : List (String × List (ℚ × Job))) :
    List (String × List (ℚ × Job)) :=
  match_lists.map (fun p => (p.1, topJobsForProfile p.2))

/-! ## Lemmas: the deduplicator -/

theorem dedupGo_sublist (js : List Job) :
    ∀ seen, (dedupGo seen js).Sublist js := by
  induction js with
  | nil => intro seen; simp [dedupGo]
  | cons j js ih =>
    intro seen
    by_cases h : dedupKey j ∈ seen
    · simp only [dedupGo, if_pos h]
      exact (ih seen).cons j
    · simp only [dedupGo, if_neg h]
      exact (ih _).cons₂ j

theorem dedupGo_eq_keepFirstAux (js : List Job) :
    ∀ (seen : List (String × String × String)) (earlier : List Job),
      (∀ k, k ∈ seen ↔ k ∈ earlier.map dedupKey) →
      dedupGo seen js = keepFirstAux earlier js := by
  induction js with
  | nil => intro seen earlier _; rfl
  | cons j js ih =>
    intro seen earlier hiff
    have hmem : ∀ k, k ∈ earlier.map dedupKey ∨ k = dedupKey j ↔
        k ∈ (earlier ++ [j]).map dedupKey := by
      intro k
      simp [List.map_append]
    by_cases h : dedupKey j ∈ seen
    · have h2 : dedupKey j ∈ earlier.map dedupKey := (hiff _).mp h
      simp only [dedupGo, keepFirstAux, if_pos h, if_pos h2]
      apply ih
      intro k
      rw [← hmem k]
      constructor
      · intro hk; exact Or.inl ((hiff k).mp hk)
      · rintro (hk | rfl)
        · exact (hiff k).mpr hk
        · exact h
    · have h2 : dedupKey j ∉ earlier.map dedupKey := fun hc => h ((hiff _).mpr hc)
      simp only [dedupGo, keepFirstAux, if_neg h, if_neg h2]
      congr 1
      apply ih
      intro k
      rw [← hmem k]
      rw [List.mem_cons]
      constructor
      · rintro (rfl | hk)
        · exact Or.inr rfl
        · exact Or.inl ((hiff k).mp hk)
      · rintro (hk | rfl)
        · exact Or.inr ((hiff k).mpr hk)
        · exact Or.inl rfl

theorem mem_dedupGo_key_notin_seen (js : List Job) :
    ∀ seen j, j ∈ dedupGo seen js → dedupKey j ∉ seen := by
  induction js with
  | nil => intro seen j hj; simp [dedupGo] at hj
  | cons a js ih =>
    intro seen j hj
    by_cases h : dedupKey a ∈ seen
    · rw [dedupGo, if_pos h] at hj
      exact ih seen j hj
    · rw [dedupGo, if_neg h] at hj
      rcases List.mem_cons.mp hj with rfl | hj2
      · exact h
      · have := ih _ j hj2
        intro hc
        exact this (List.mem_cons_of_mem _ hc)

theorem dedupGo_keys_nodup (js : List Job) :
    ∀ seen, ((dedupGo seen js).map dedupKey).Nodup := by
  induction js with
  | nil => intro seen; simp [dedupGo]
  | cons a js ih =>
    intro seen
    by_cases h : dedupKey a ∈ seen
    · simp only [dedupGo, if_pos h]
      exact ih seen
    · simp only [dedupGo, if_neg h, List.map_cons, List.nodup_cons]
      refine ⟨?_, ih _⟩
      intro hc
      rcases List.mem_map.mp hc with ⟨j, hj, hkey⟩
      exact mem_dedupGo_key_notin_seen js _ j hj (hkey ▸ List.mem_cons_self _ _)

theorem dedupGo_of_keys_nodup (js : List Job) :
    ∀ seen, (js.map dedupKey).Nodup → (∀ j ∈ js, dedupKey j ∉ seen) →
      dedupGo seen js = js := by
  induction js with
  | nil => intro seen _ _; rfl
  | cons a js ih =>
    intro seen hnd hdisj
    have hnd2 : (dedupKey a ∉ js.map dedupKey) ∧ (js.map dedupKey).Nodup := by
      rw [List.map_cons, List.nodup_cons] at hnd
      exact hnd
    have ha : dedupKey a ∉ seen := hdisj a (List.mem_cons_self _ _)
    simp only [dedupGo, if_neg ha]
    congr 1
    apply ih _ hnd2.2
    intro j hj
    rw [List.mem_cons]
    rintro (heq | hseen)
    · exact hnd2.1 (heq ▸ List.mem_map_of_mem dedupKey hj)
    · exact hdisj j (List.mem_cons_of_mem _ hj) hseen

/-! ## Lemmas: the freshness classifier -/

theorem parse_age_hours_eq_classify (text : String) :
    parse_age_hours text = classify text := by
  unfold parse_age_hours classify
  dsimp only
  split_ifs
  · rfl
  · rfl
  · rcases h3 : reSearchNumUnit (pyStrip (List.map pyLowerChar text.toList))
      with _ | ⟨n, u⟩
    · rfl
    · cases u
      · rfl
      · rfl
      · show (((n * 24 : ℕ) : ℚ) : WithTop ℚ) = (((n : ℚ) * 24 : ℚ) : WithTop ℚ)
        norm_cast

/-! ## Claim theorems: C2, C3, C4, C5, C10 -/

/-- Claim C2: on every input text the freshness classifier returns positive
infinity (here `⊤`) when the lowercased trimmed text is empty, 0 when it
contains "just" or "today", otherwise n/60, n or n·24 for the first integer
n followed by a minute/hour/day unit, and infinity when no integer-unit
pattern occurs — exactly the spec-side `classify`; concrete sample inputs
exercise each branch. -/
theorem C2_freshness_classifier :
    (∀ text : String, parse_age_hours text = classify text)
    ∧ parse_age_hours "3 hours ago" = ((3 : ℚ) : WithTop ℚ)
    ∧ parse_age_hours "45 minutes ago" = (((45 : ℚ) / 60 : ℚ) : WithTop ℚ)
    ∧ parse_age_hours "2 days ago" = ((48 : ℚ) : WithTop ℚ)
    ∧ parse_age_hours "   " = ⊤
    ∧ parse_age_hours "Just posted" = ((0 : ℚ) : WithTop ℚ)
    ∧ parse_age_hours "opened today" = ((0 : ℚ) : WithTop ℚ)
    ∧ parse_age_hours "tomorrow" = ⊤ :=
  ⟨parse_age_hours_eq_classify, by decide, by with_unfolding_all rfl, by decide,
    by decide, by decide, by decide, by decide⟩

/-- Claim C3: `is_fresh` is monotone in the `max_hours` threshold. -/
theorem C3_is_fresh_monotone (j : Job) (h1 h2 : ℚ) (hf : is_fresh j h1 = true)
    (h12 : h1 ≤ h2) : is_fresh j h2 = true := by
  unfold is_fresh at hf ⊢
  simp only [decide_eq_true_eq] at hf ⊢
  exact le_trans hf (WithTop.coe_le_coe.mpr h12)

/-- Witness for C3 at a concrete posting and thresholds 3 ≤ 24. -/
theorem C3_is_fresh_monotone_witness :
    is_fresh { posted_at := some "2 hours ago" } 3 = true ∧ (3 : ℚ) ≤ 24
      ∧ is_fresh { posted_at := some "2 hours ago" } 24 = true :=
  ⟨by with_unfolding_all rfl, by norm_num,
    C3_is_fresh_monotone { posted_at := some "2 hours ago" } 3 24
      (by with_unfolding_all rfl) (by norm_num)⟩

/-- Claim C4: deduplication keeps the first occurrence of each normalized
(title, company, location) key and preserves discovery order: it equals the
spec-side `keepFirstByKey` (keep a posting exactly when its key has not
appeared earlier) and is a subsequence of the input; on [A(key1), B(key2),
A'(key1, different description)] it returns [A, B]. -/
theorem C4_dedup_first_seen_order :
    (∀ jobs : List Job, dedup_by_title_company_location jobs = keepFirstByKey jobs)
    ∧ (∀ jobs : List Job, (dedup_by_title_company_location jobs).Sublist jobs)
    ∧ dedup_by_title_company_location
        [{ title := some "T", company_name := some "C", location := some "L" },
         { title := some "T2", company_name := some "C", location := some "L" },
         { title := some "T", company_name := some "C", location := some "L",
           description := some "different" }]
      = [{ title := some "T", company_name := some "C", location := some "L" },
         { title := some "T2", company_name := some "C", location := some "L" }] := by
  refine ⟨?_, ?_, ?_⟩
  · intro jobs
    exact dedupGo_eq_keepFirstAux jobs [] [] (by simp)
  · intro jobs
    exact dedupGo_sublist jobs []
  · decide

/-- Claim C5: deduplication is idempotent. -/
theorem C5_dedup_idempotent (jobs : List Job) :
    dedup_by_title_company_location (dedup_by_title_company_location jobs)
      = dedup_by_title_company_location jobs := by
  unfold dedup_by_title_company_location
  apply dedupGo_of_keys_nodup
  · exact dedupGo_keys_nodup jobs []
  · intro j _
    simp

/-- Claim C10: the dedup key is the trimmed, case-sensitive triple of title,
company_name and location with absent fields defaulting to "": two postings
collapse exactly when their trimmed triples agree, so case-different
postings both survive while field-less postings (key ("","","")) collapse
to the first. -/
theorem C10_dedup_key_trimmed_case_sensitive :
    (∀ p q : Job,
      dedup_by_title_company_location [p, q] = [p] ↔ dedupKey q = dedupKey p)
    ∧ (∀ p q : Job,
      dedup_by_title_company_location [p, q] = [p, q] ↔ dedupKey q ≠ dedupKey p)
    ∧ dedupKey {} = ("", "", "")
    ∧ dedupKey { title := some "  Data Analyst  ", location := some " Remote" }
      = ("Data Analyst", "", "Remote")
    ∧ dedup_by_title_company_location
        [{ title := some "Data Analyst", company_name := some "Acme" },
         { title := some "data analyst", company_name := some "Acme" }]
      = [{ title := some "Data Analyst", company_name := some "Acme" },
         { title := some "data analyst", company_name := some "Acme" }]
    ∧ dedup_by_title_company_location
        [{ description := some "first" }, { description := some "second" }]
      = [{ description := some "first" }] := by
  refine ⟨?_, ?_, by decide, by decide, by decide, by decide⟩
  · intro p q
    by_cases h : dedupKey q = dedupKey p
    · simp [dedup_by_title_company_location, dedupGo, h]
    · simp [dedup_by_title_company_location, dedupGo, h]
  · intro p q
    by_cases h : dedupKey q = dedupKey p
    · simp [dedup_by_title_company_location, dedupGo, h]
    · simp [dedup_by_title_company_location, dedupGo, h]

/-! ## Lemmas: ranking -/

theorem topJobsForProfile_length_le (job_list : List (ℚ × Job)) :
    (topJobsForProfile job_list).length ≤ 15 := by
  unfold topJobsForProfile
  rw [List.length_take]
  exact min_le_left _ _

theorem topJobsForProfile_sorted (job_list : List (ℚ × Job)) :
    (topJobsForProfile job_list).Pairwise (fun a b => b.1 ≤ a.1) := by
  unfold topJobsForProfile
  have htrans : ∀ a b c : ℚ × Job, (fun a b : ℚ × Job => decide (b.1 ≤ a.1)) a b = true →
      (fun a b : ℚ × Job => decide (b.1 ≤ a.1)) b c = true →
      (fun a b : ℚ × Job => decide (b.1 ≤ a.1)) a c = true := by
    intro a b c hab hbc
    simp only [decide_eq_true_eq] at hab hbc ⊢
    exact le_trans hbc hab
  have htotal : ∀ a b : ℚ × Job, ((fun a b : ℚ × Job => decide (b.1 ≤ a.1)) a b
      || (fun a b : ℚ × Job => decide (b.1 ≤ a.1)) b a) = true := by
    intro a b
    simp only [Bool.or_eq_true, decide_eq_true_eq]
    exact le_total b.1 a.1
  have hs := List.sorted_mergeSort htrans htotal job_list
  have hp := List.Pairwise.sublist (List.take_sublist 15 _) hs
  exact hp.imp (fun h => of_decide_eq_true h)

/-! ## Lemmas: matching -/

theorem appendScored_fst (n : String) (e : ℚ × Job)
    (ms : List (String × List (ℚ × Job))) :
    (appendScored n e ms).map Prod.fst = ms.map Prod.fst := by
  unfold appendScored
  rw [List.map_map]
  apply List.map_congr_left
  intro p _
  by_cases h : p.1 = n <;> simp [h]

theorem innerFold_fst (f : String → ℚ × Job) (ns : List String) :
    ∀ ms : List (String × List (ℚ × Job)),
      ((ns.foldl (fun ms2 n2 => appendScored n2 (f n2) ms2) ms).map Prod.fst)
        = ms.map Prod.fst := by
  induction ns with
  | nil => intro ms; rfl
  | cons n ns ih =>
    intro ms
    rw [List.foldl_cons, ih, appendScored_fst]

theorem matchFold_fst {V : Type} (resume_names : List String)
    (resume_emb : String → V) (encode : String → V) (cos_sim : V → V → ℚ)
    (js : List Job) :
    ∀ ms : List (String × List (ℚ × Job)),
      ((js.foldl
        (fun ms j => resume_names.foldl
          (fun ms2 n =>
            appendScored n (cos_sim (resume_emb n) (encode (compositeDesc j)), j) ms2)
          ms)
        ms).map Prod.fst) = ms.map Prod.fst := by
  induction js with
  | nil => intro ms; rfl
  | cons j js ih =>
    intro ms
    rw [List.foldl_cons, ih, innerFold_fst]

/-! ## Claim theorems: C8, C9 -/

/-- Claim C8: for every profile the ranked list delivered to the digest is
sorted non-increasingly by score and has at most K = 15 entries. -/
theorem C8_ranked_topk_sorted :
    (∀ job_list : List (ℚ × Job), (topJobsForProfile job_list).length ≤ 15
      ∧ (topJobsForProfile job_list).Pairwise (fun a b => b.1 ≤ a.1))
    ∧ (∀ ml : List (String × List (ℚ × Job)), ∀ p ∈ build_email_ranked ml,
      p.2.length ≤ 15 ∧ p.2.Pairwise (fun a b => b.1 ≤ a.1)) := by
  constructor
  · intro jl
    exact ⟨topJobsForProfile_length_le jl, topJobsForProfile_sorted jl⟩
  · intro ml p hp
    rcases List.mem_map.mp hp with ⟨q, _, rfl⟩
    exact ⟨topJobsForProfile_length_le q.2, topJobsForProfile_sorted q.2⟩

/-- Claim C9: the matching result has an entry for every configured profile
(its keys are exactly the configured names, in order), and a profile with no
scorable postings — empty input, or postings whose composite text is all
empty — maps to the empty list rather than being absent. -/
theorem C9_every_profile_has_entry (V : Type) (resume_names : List String)
    (resume_emb : String → V) (encode : String → V) (cos_sim : V → V → ℚ) :
    (∀ jobs : List Job,
      (match_jobs_to_resumes resume_names resume_emb encode cos_sim jobs).map Prod.fst
        = resume_names)
    ∧ match_jobs_to_resumes resume_names resume_emb encode cos_sim []
        = resume_names.map (fun n => (n, []))
    ∧ (∀ jobs : List Job, (∀ j ∈ jobs, compositeDesc j = "") →
      match_jobs_to_resumes resume_names resume_emb encode cos_sim jobs
        = resume_names.map (fun n => (n, []))) := by
  refine ⟨?_, rfl, ?_⟩
  · intro jobs
    unfold match_jobs_to_resumes
    dsimp only
    rw [matchFold_fst]
    rw [List.map_map]
    rw [show (Prod.fst ∘ fun n : String => (n, ([] : List (ℚ × Job)))) = id from rfl]
    exact List.map_id resume_names
  · intro jobs hall
    unfold match_jobs_to_resumes
    dsimp only
    have hnil : jobs.filter (fun j => compositeDesc j ≠ "") = [] := by
      rw [List.filter_eq_nil_iff]
      intro j hj
      simp [hall j hj]
    rw [hnil]
    rfl

/-! ## Lemmas: the search collector -/

theorem bumpStart_keys (starts : List (String × ℕ)) (loc : String) :
    (bumpStart starts loc).map Prod.fst = starts.map Prod.fst := by
  unfold bumpStart
  rw [List.map_map]
  apply List.map_congr_left
  intro p _
  by_cases h : p.1 = loc <;> simp [h]

theorem runRound_locs (provider : String → ℕ → List Job) (role : String)
    (min_jobs : ℕ) (L : List String) :
    ∀ st : SearchState, (runRound provider role min_jobs L st).locs = st.locs := by
  induction L with
  | nil => intro st; rfl
  | cons loc rest ih =>
    intro st
    rw [runRound]
    dsimp only
    split
    · rfl
    · exact ih _

theorem runRound_rounds (provider : String → ℕ → List Job) (role : String)
    (min_jobs : ℕ) (L : List String) :
    ∀ st : SearchState, (runRound provider role min_jobs L st).rounds = st.rounds := by
  induction L with
  | nil => intro st; rfl
  | cons loc rest ih =>
    intro st
    rw [runRound]
    dsimp only
    split
    · rfl
    · exact ih _

theorem runRound_startsKeys (provider : String → ℕ → List Job) (role : String)
    (min_jobs : ℕ) (L : List String) :
    ∀ st : SearchState,
      (runRound provider role min_jobs L st).starts.map Prod.fst
        = st.starts.map Prod.fst := by
  induction L with
  | nil => intro st; rfl
  | cons loc rest ih =>
    intro st
    rw [runRound]
    dsimp only
    split
    · exact bumpStart_keys _ _
    · rw [ih]
      exact bumpStart_keys _ _

theorem runRound_collected_fresh (provider : String → ℕ → List Job) (role : String)
    (min_jobs : ℕ) (L : List String) :
    ∀ (st : SearchState) (j : Job),
      j ∈ (runRound provider role min_jobs L st).collected →
      j ∈ st.collected ∨ is_fresh j = true := by
  induction L with
  | nil =>
    intro st j hj
    rw [runRound] at hj
    exact Or.inl hj
  | cons loc rest ih =>
    intro st j hj
    rw [runRound] at hj
    dsimp only at hj
    split at hj
    · rcases List.mem_append.mp hj with h | h
      · exact Or.inl h
      · exact Or.inr (List.mem_filter.mp h).2
    · rcases ih _ j hj with h | h
      · rcases List.mem_append.mp h with h2 | h2
        · exact Or.inl h2
        · exact Or.inr (List.mem_filter.mp h2).2
      · exact Or.inr h

theorem runRound_empty_provider (role : String) (min_jobs : ℕ) (L : List String) :
    ∀ st : SearchState,
      (runRound (fun _ _ => []) role min_jobs L st).collected = st.collected := by
  induction L with
  | nil => intro st; rfl
  | cons loc rest ih =>
    intro st
    rw [runRound]
    dsimp only
    split
    · simp
    · rw [ih]
      simp

theorem broadenStep_rounds (b : Option String) (st : SearchState) :
    (broadenStep b st).rounds = st.rounds := by
  rcases b with _ | bb
  · rfl
  · unfold broadenStep
    dsimp only
    split
    · split <;> rfl
    · rfl

theorem broadenStep_collected (b : Option String) (st : SearchState) :
    (broadenStep b st).collected = st.collected := by
  rcases b with _ | bb
  · rfl
  · unfold broadenStep
    dsimp only
    split
    · split <;> rfl
    · rfl

theorem broadenStep_of_rounds_ne (b : Option String) (st : SearchState)
    (h : st.rounds ≠ 2) : broadenStep b st = st := by
  rcases b with _ | bb
  · rfl
  · unfold broadenStep
    dsimp only
    rw [if_neg]
    simp [h]

theorem searchStep_fst_rounds (provider : String → ℕ → List Job) (role : String)
    (min_jobs : ℕ) (b : Option String) (st : SearchState) :
    (searchStep provider role min_jobs b st).1.rounds = st.rounds + 1 := by
  unfold searchStep
  dsimp only
  split
  · exact runRound_rounds _ _ _ _ _
  · rw [broadenStep_rounds]
    exact runRound_rounds _ _ _ _ _

theorem searchStep_snd_false_eq (provider : String → ℕ → List Job) (role : String)
    (min_jobs : ℕ) (b : Option String) (st : SearchState) :
    (searchStep provider role min_jobs b st).2 = false →
    (searchStep provider role min_jobs b st).1
      = runRound provider role min_jobs st.locs { st with rounds := st.rounds + 1 } := by
  unfold searchStep
  dsimp only
  split
  · intro _
    rfl
  · intro h
    simp at h

theorem searchStep_snd_false_min (provider : String → ℕ → List Job) (role : String)
    (min_jobs : ℕ) (b : Option String) (st : SearchState) :
    (searchStep provider role min_jobs b st).2 = false →
    min_jobs ≤ (searchStep provider role min_jobs b st).1.collected.length := by
  unfold searchStep
  dsimp only
  split
  · intro _
    assumption
  · intro h
    simp at h

theorem searchLoop_of_rounds_ge (provider : String → ℕ → List Job) (role : String)
    (min_jobs : ℕ) (b : Option String) (fuel : ℕ) (st : SearchState)
    (h : hard_cap_rounds ≤ st.rounds) :
    searchLoop provider role min_jobs b fuel st = st := by
  cases fuel with
  | zero => rfl
  | succ f =>
    rw [searchLoop]
    dsimp only
    rw [if_neg]
    intro hc
    exact absurd h (Nat.not_le.mpr hc.2)

theorem searchLoop_of_min_le (provider : String → ℕ → List Job) (role : String)
    (min_jobs : ℕ) (b : Option String) (fuel : ℕ) (st : SearchState)
    (h : min_jobs ≤ st.collected.length) :
    searchLoop provider role min_jobs b fuel st = st := by
  cases fuel with
  | zero => rfl
  | succ f =>
    rw [searchLoop]
    dsimp only
    rw [if_neg]
    intro hc
    exact absurd h (Nat.not_le.mpr hc.1)

theorem searchLoop_rounds_le (provider : String → ℕ → List Job) (role : String)
    (min_jobs : ℕ) (b : Option String) (fuel : ℕ) :
    ∀ st : SearchState, st.rounds ≤ hard_cap_rounds →
      (searchLoop provider role min_jobs b fuel st).rounds ≤ hard_cap_rounds := by
  induction fuel with
  | zero => intro st h; exact h
  | succ f ih =>
    intro st h
    rw [searchLoop]
    dsimp only
    split
    · rename_i hc
      split
      · apply ih
        rw [searchStep_fst_rounds]
        exact hc.2
      · rw [searchStep_fst_rounds]
        exact hc.2
    · exact h

theorem searchLoop_exit (provider : String → ℕ → List Job) (role : String)
    (min_jobs : ℕ) (b : Option String) (fuel : ℕ) :
    ∀ st : SearchState, hard_cap_rounds ≤ st.rounds + fuel →
      min_jobs ≤ (searchLoop provider role min_jobs b fuel st).collected.length
      ∨ hard_cap_rounds ≤ (searchLoop provider role min_jobs b fuel st).rounds := by
  induction fuel with
  | zero =>
    intro st h
    right
    simpa using h
  | succ f ih =>
    intro st h
    rw [searchLoop]
    dsimp only
    split
    · rename_i hc
      by_cases hs2 : (searchStep provider role min_jobs b st).2 = true
      · rw [if_pos hs2]
        apply ih
        rw [searchStep_fst_rounds]
        omega
      · rw [if_neg hs2]
        left
        exact searchStep_snd_false_min provider role min_jobs b st
          (Bool.not_eq_true _ ▸ hs2)
    · rename_i hc
      rcases Decidable.not_and_iff_or_not.mp hc with h1 | h1
      · left
        exact Nat.not_lt.mp h1
      · right
        exact Nat.not_lt.mp h1

theorem searchLoop_fuel_irrel (provider : String → ℕ → List Job) (role : String)
    (min_jobs : ℕ) (b : Option String) :
    ∀ (f1 f2 : ℕ) (st : SearchState),
      hard_cap_rounds ≤ st.rounds + f1 → hard_cap_rounds ≤ st.rounds + f2 →
      searchLoop provider role min_jobs b f1 st
        = searchLoop provider role min_jobs b f2 st := by
  intro f1
  induction f1 with
  | zero =>
    intro f2 st h1 h2
    have h8 : hard_cap_rounds ≤ st.rounds := by simpa using h1
    rw [searchLoop_of_rounds_ge provider role min_jobs b f2 st h8]
    rfl
  | succ g ih =>
    intro f2 st h1 h2
    cases f2 with
    | zero =>
      have h8 : hard_cap_rounds ≤ st.rounds := by simpa using h2
      rw [searchLoop_of_rounds_ge provider role min_jobs b (g + 1) st h8]
      rfl
    | succ g2 =>
      rw [searchLoop, searchLoop]
      dsimp only
      by_cases hc : st.collected.length < min_jobs ∧ st.rounds < hard_cap_rounds
      · rw [if_pos hc, if_pos hc]
        by_cases hs2 : (searchStep provider role min_jobs b st).2 = true
        · rw [if_pos hs2, if_pos hs2]
          apply ih
          · rw [searchStep_fst_rounds]
            omega
          · rw [searchStep_fst_rounds]
            omega
        · rw [if_neg hs2, if_neg hs2]
      · rw [if_neg hc, if_neg hc]

/-- Claim C1 (helper shape): the final state of the collector. -/
theorem initState_rounds (locations : List String) : (initState locations).rounds = 0 :=
  rfl

/-- Claim C1: for every role, location list, min_jobs value and provider
behaviour, the collection loop terminates — any fuel at least the hard cap
computes the same final state as fuel `hard_cap_rounds` — performs at most
`hard_cap_rounds = 8` rounds, stops the moment `min_jobs` postings have
accumulated (a state already at the target is a fixed point), and otherwise
stops only at the cap: the final state meets the target or has round count
exactly 8. -/
theorem C1_round_cap_termination :
    (∀ (provider : String → ℕ → List Job) (role : String) (locations : List String)
        (min_jobs : ℕ) (broaden : Option String),
      (searchFinalState provider role locations min_jobs broaden).rounds
        ≤ hard_cap_rounds)
    ∧ (∀ (provider : String → ℕ → List Job) (role : String) (locations : List String)
        (min_jobs : ℕ) (broaden : Option String),
      min_jobs ≤ (searchFinalState provider role locations min_jobs
          broaden).collected.length
      ∨ (searchFinalState provider role locations min_jobs broaden).rounds
          = hard_cap_rounds)
    ∧ (∀ (provider : String → ℕ → List Job) (role : String) (min_jobs : ℕ)
        (broaden : Option String) (fuel : ℕ) (st : SearchState),
      min_jobs ≤ st.collected.length →
      searchLoop provider role min_jobs broaden fuel st = st)
    ∧ (∀ (provider : String → ℕ → List Job) (role : String) (locations : List String)
        (min_jobs : ℕ) (broaden : Option String) (fuel : ℕ),
      hard_cap_rounds ≤ fuel →
      searchLoop provider role min_jobs broaden fuel (initState locations)
        = searchFinalState provider role locations min_jobs broaden) := by
  refine ⟨?_, ?_, ?_, ?_⟩
  · intro provider role locations min_jobs broaden
    exact searchLoop_rounds_le provider role min_jobs broaden hard_cap_rounds
      (initState locations) (by rw [initState_rounds]; exact Nat.zero_le _)
  · intro provider role locations min_jobs broaden
    have hexit := searchLoop_exit provider role min_jobs broaden hard_cap_rounds
      (initState locations) (by rw [initState_rounds]; omega)
    have hle := searchLoop_rounds_le provider role min_jobs broaden hard_cap_rounds
      (initState locations) (by rw [initState_rounds]; exact Nat.zero_le _)
    rcases hexit with h | h
    · exact Or.inl h
    · exact Or.inr (le_antisymm hle h)
  · intro provider role min_jobs broaden fuel st h
    exact searchLoop_of_min_le provider role min_jobs broaden fuel st h
  · intro provider role locations min_jobs broaden fuel hfuel
    exact searchLoop_fuel_irrel provider role min_jobs broaden fuel hard_cap_rounds
      (initState locations) (by rw [initState_rounds]; omega)
      (by rw [initState_rounds]; omega)

/-! ## Lemmas: freshness and dedup of the collector's output (claim C7) -/

theorem searchStep_collected_fresh (provider : String → ℕ → List Job) (role : String)
    (min_jobs : ℕ) (b : Option String) (st : SearchState)
    (h : ∀ j ∈ st.collected, is_fresh j = true) :
    ∀ j ∈ (searchStep provider role min_jobs b st).1.collected, is_fresh j = true := by
  intro j hj
  unfold searchStep at hj
  dsimp only at hj
  split at hj
  · rcases runRound_collected_fresh provider role min_jobs _ _ j hj with h2 | h2
    · exact h j h2
    · exact h2
  · rw [broadenStep_collected] at hj
    rcases runRound_collected_fresh provider role min_jobs _ _ j hj with h2 | h2
    · exact h j h2
    · exact h2

theorem searchLoop_collected_fresh (provider : String → ℕ → List Job) (role : String)
    (min_jobs : ℕ) (b : Option String) (fuel : ℕ) :
    ∀ st : SearchState, (∀ j ∈ st.collected, is_fresh j = true) →
      ∀ j ∈ (searchLoop provider role min_jobs b fuel st).collected, is_fresh j = true := by
  induction fuel with
  | zero => intro st h; exact h
  | succ f ih =>
    intro st h
    rw [searchLoop]
    dsimp only
    split
    · split
      · exact ih _ (searchStep_collected_fresh provider role min_jobs b st h)
      · exact searchStep_collected_fresh provider role min_jobs b st h
    · exact h

theorem searchStep_empty_collected (role : String) (min_jobs : ℕ) (b : Option String)
    (st : SearchState) :
    (searchStep (fun _ _ => []) role min_jobs b st).1.collected = st.collected := by
  unfold searchStep
  dsimp only
  split
  · exact runRound_empty_provider role min_jobs _ _
  · rw [broadenStep_collected]
    exact runRound_empty_provider role min_jobs _ _

theorem searchLoop_empty_provider (role : String) (min_jobs : ℕ) (b : Option String)
    (fuel : ℕ) :
    ∀ st : SearchState,
      (searchLoop (fun _ _ => []) role min_jobs b fuel st).collected = st.collected := by
  induction fuel with
  | zero => intro st; rfl
  | succ f ih =>
    intro st
    rw [searchLoop]
    dsimp only
    split
    · split
      · rw [ih]
        exact searchStep_empty_collected role min_jobs b st
      · exact searchStep_empty_collected role min_jobs b st
    · rfl

theorem search_jobs_eq_dedup (provider : String → ℕ → List Job) (role : String)
    (locations : List String) (min_jobs : ℕ) (broaden : Option String) :
    search_jobs_for_role provider role locations min_jobs broaden
      = dedup_by_title_company_location
          (searchFinalState provider role locations min_jobs broaden).collected := by
  unfold search_jobs_for_role
  dsimp only
  exact List.take_of_length_le (le_max_right _ _)

/-- Claim C7: the list `search_jobs_for_role` returns is deduplicated (no two
elements share a dedup key) and every element passes `is_fresh` at the
default 24-hour window; the length is not guaranteed to reach `min_jobs` — a
provider with nothing to offer yields the empty list. -/
theorem C7_output_fresh_and_deduped :
    (∀ (provider : String → ℕ → List Job) (role : String) (locations : List String)
        (min_jobs : ℕ) (broaden : Option String),
      ((search_jobs_for_role provider role locations min_jobs broaden).map
        dedupKey).Nodup)
    ∧ (∀ (provider : String → ℕ → List Job) (role : String) (locations : List String)
        (min_jobs : ℕ) (broaden : Option String),
      ∀ j ∈ search_jobs_for_role provider role locations min_jobs broaden,
        is_fresh j = true)
    ∧ (∀ (role : String) (locations : List String) (min_jobs : ℕ)
        (broaden : Option String),
      search_jobs_for_role (fun _ _ => []) role locations min_jobs broaden = []) := by
  refine ⟨?_, ?_, ?_⟩
  · intro provider role locations min_jobs broaden
    rw [search_jobs_eq_dedup]
    exact dedupGo_keys_nodup _ []
  · intro provider role locations min_jobs broaden j hj
    rw [search_jobs_eq_dedup] at hj
    have hj2 : j ∈ (searchFinalState provider role locations min_jobs broaden).collected :=
      (dedupGo_sublist _ []).subset hj
    exact searchLoop_collected_fresh provider role min_jobs broaden hard_cap_rounds
      (initState locations) (fun j2 hj2c => absurd hj2c (List.not_mem_nil j2)) j hj2
  · intro role locations min_jobs broaden
    rw [search_jobs_eq_dedup]
    unfold searchFinalState
    rw [searchLoop_empty_provider]
    rfl

/-! ## Lemmas: the broadening policy (claim C6) -/

theorem mem_dedupStringsGo_notin_seen (ls : List String) :
    ∀ seen l, l ∈ dedupStringsGo seen ls → l ∉ seen := by
  induction ls with
  | nil => intro seen l hl; simp [dedupStringsGo] at hl
  | cons a ls ih =>
    intro seen l hl
    by_cases h : a ∈ seen
    · rw [dedupStringsGo, if_pos h] at hl
      exact ih seen l hl
    · rw [dedupStringsGo, if_neg h] at hl
      rcases List.mem_cons.mp hl with rfl | hl2
      · exact h
      · intro hc
        exact ih _ l hl2 (List.mem_cons_of_mem _ hc)

theorem dedupStringsGo_nodup (ls : List String) :
    ∀ seen, (dedupStringsGo seen ls).Nodup := by
  induction ls with
  | nil => intro seen; simp [dedupStringsGo]
  | cons a ls ih =>
    intro seen
    by_cases h : a ∈ seen
    · rw [dedupStringsGo, if_pos h]
      exact ih seen
    · rw [dedupStringsGo, if_neg h]
      rw [List.nodup_cons]
      refine ⟨?_, ih _⟩
      intro hc
      exact mem_dedupStringsGo_notin_seen ls _ a hc (List.mem_cons_self _ _)

theorem initState_keys (locations : List String) :
    (initState locations).starts.map Prod.fst = (initState locations).locs := by
  unfold initState
  dsimp only
  rw [List.map_map]
  rw [show (Prod.fst ∘ fun l : String => (l, (0 : ℕ))) = id from rfl]
  exact List.map_id _

theorem searchStep_locs_of_rounds_ne_one (provider : String → ℕ → List Job)
    (role : String) (min_jobs : ℕ) (b : Option String) (st : SearchState)
    (h : st.rounds + 1 ≠ 2) :
    (searchStep provider role min_jobs b st).1.locs = st.locs := by
  unfold searchStep
  dsimp only
  split
  · exact runRound_locs _ _ _ _ _
  · rw [broadenStep_of_rounds_ne _ _ (by rw [runRound_rounds]; exact h)]
    exact runRound_locs _ _ _ _ _

theorem searchStep_keys_of_rounds_ne_one (provider : String → ℕ → List Job)
    (role : String) (min_jobs : ℕ) (b : Option String) (st : SearchState)
    (h : st.rounds + 1 ≠ 2) :
    (searchStep provider role min_jobs b st).1.starts.map Prod.fst
      = st.starts.map Prod.fst := by
  unfold searchStep
  dsimp only
  split
  · rw [runRound_startsKeys]
  · rw [broadenStep_of_rounds_ne _ _ (by rw [runRound_rounds]; exact h)]
    rw [runRound_startsKeys]

theorem searchLoop_locs_of_rounds_ge_two (provider : String → ℕ → List Job)
    (role : String) (min_jobs : ℕ) (b : Option String) (fuel : ℕ) :
    ∀ st : SearchState, 2 ≤ st.rounds →
      (searchLoop provider role min_jobs b fuel st).locs = st.locs := by
  induction fuel with
  | zero => intro st _; rfl
  | succ f ih =>
    intro st h2
    rw [searchLoop]
    dsimp only
    split
    · split
      · rw [ih _ (by rw [searchStep_fst_rounds]; omega)]
        exact searchStep_locs_of_rounds_ne_one _ _ _ _ _ (by omega)
      · exact searchStep_locs_of_rounds_ne_one _ _ _ _ _ (by omega)
    · rfl

theorem searchStep_locs_rounds_one (provider : String → ℕ → List Job) (role : String)
    (min_jobs : ℕ) (b : Option String) (st : SearchState)
    (_hr : st.rounds = 1) (hkeys : st.starts.map Prod.fst = st.locs) :
    (searchStep provider role min_jobs b st).1.locs = st.locs
    ∨ ∃ bb, b = some bb ∧ bb ∉ st.locs
        ∧ (searchStep provider role min_jobs b st).1.locs = st.locs ++ [bb] := by
  unfold searchStep
  dsimp only
  split
  · left
    exact runRound_locs _ _ _ _ _
  · rcases b with _ | bb
    · left
      exact runRound_locs _ _ _ _ _
    · unfold broadenStep
      dsimp only
      split
      · split
        · left
          exact runRound_locs _ _ _ _ _
        · rename_i hcond hnotin
          right
          refine ⟨bb, rfl, ?_, ?_⟩
          · rw [runRound_startsKeys] at hnotin
            dsimp only at hnotin
            rw [hkeys] at hnotin
            exact hnotin
          · dsimp only
            rw [runRound_locs]
      · left
        exact runRound_locs _ _ _ _ _

theorem searchStep_broaden_iff (provider : String → ℕ → List Job) (role : String)
    (min_jobs : ℕ) (broaden : Option String) (st : SearchState) (b2 : String) :
    (searchStep provider role min_jobs broaden st).1.locs = st.locs ++ [b2]
    ↔ broaden = some b2 ∧ b2 ≠ "" ∧ st.rounds + 1 = 2
      ∧ (runRound provider role min_jobs st.locs
          { st with rounds := st.rounds + 1 }).collected.length < min_jobs
      ∧ b2 ∉ st.starts.map Prod.fst := by
  have hlocsne : ∀ (l : List String) (a : String), l ≠ l ++ [a] := by
    intro l a h
    have := congrArg List.length h
    simp at this
  unfold searchStep
  dsimp only
  split
  · rename_i hge
    constructor
    · intro h
      exfalso
      rw [runRound_locs] at h
      dsimp only at h
      exact hlocsne _ _ h
    · rintro ⟨_, _, _, hlt, _⟩
      exact absurd hlt (Nat.not_lt.mpr hge)
  · rename_i hlt0
    rcases broaden with _ | bb
    · constructor
      · intro h
        exfalso
        dsimp only at h
        simp only [broadenStep] at h
        rw [runRound_locs] at h
        dsimp only at h
        exact hlocsne _ _ h
      · rintro ⟨hb, _⟩
        exact Option.noConfusion hb
    · unfold broadenStep
      dsimp only
      split
      · rename_i hcond
        have hc2 : (runRound provider role min_jobs st.locs
            { st with rounds := st.rounds + 1 }).rounds = 2 ∧ bb ≠ "" := by
          simpa [Bool.and_eq_true, decide_eq_true_eq] using hcond
        split
        · rename_i hin
          constructor
          · intro h
            exfalso
            rw [runRound_locs] at h
            dsimp only at h
            exact hlocsne _ _ h
          · rintro ⟨hb, hne, hr2, hlen, hnotin⟩
            injection hb with hb
            subst hb
            exfalso
            apply hnotin
            rw [runRound_startsKeys] at hin
            dsimp only at hin
            exact hin
        · rename_i hnotin
          constructor
          · intro h
            dsimp only at h
            rw [runRound_locs] at h
            dsimp only at h
            have hb : bb = b2 := by
              have h2 := List.append_cancel_left h
              simpa using h2
            subst hb
            refine ⟨rfl, hc2.2, ?_, ?_, ?_⟩
            · have h3 := hc2.1
              rw [runRound_rounds] at h3
              exact h3
            · exact Nat.not_le.mp hlt0
            · have h4 := hnotin
              rw [runRound_startsKeys] at h4
              dsimp only at h4
              exact h4
          · rintro ⟨hb, hne, hr2, hlen, hnot⟩
            injection hb with hb
            subst hb
            dsimp only
            rw [runRound_locs]
      · rename_i hcond
        constructor
        · intro h
          exfalso
          rw [runRound_locs] at h
          dsimp only at h
          exact hlocsne _ _ h
        · rintro ⟨hb, hne, hr2, hlen, hnot⟩
          injection hb with hb
          subst hb
          exfalso
          apply hcond
          simp only [Bool.and_eq_true, decide_eq_true_eq]
          refine ⟨?_, hne⟩
          rw [runRound_rounds]
          exact hr2

theorem searchLoop_broaden_cases (provider : String → ℕ → List Job) (role : String)
    (min_jobs : ℕ) (b : Option String) (st0 : SearchState)
    (h0 : st0.rounds = 0) (hkeys : st0.starts.map Prod.fst = st0.locs) (fuel : ℕ) :
    (searchLoop provider role min_jobs b fuel st0).locs = st0.locs
    ∨ ∃ bb, b = some bb ∧ bb ∉ st0.locs
        ∧ (searchLoop provider role min_jobs b fuel st0).locs = st0.locs ++ [bb] := by
  cases fuel with
  | zero => left; rfl
  | succ f1 =>
    rw [searchLoop]
    dsimp only
    split
    case isFalse => left; rfl
    case isTrue =>
      have hl1 : (searchStep provider role min_jobs b st0).1.locs = st0.locs :=
        searchStep_locs_of_rounds_ne_one _ _ _ _ _ (by omega)
      have hk1 : (searchStep provider role min_jobs b st0).1.starts.map Prod.fst
          = (searchStep provider role min_jobs b st0).1.locs := by
        rw [hl1, ← hkeys]
        exact searchStep_keys_of_rounds_ne_one _ _ _ _ _ (by omega)
      have hr1 : (searchStep provider role min_jobs b st0).1.rounds = 1 := by
        rw [searchStep_fst_rounds, h0]
      split
      case isFalse => left; exact hl1
      case isTrue =>
        cases f1 with
        | zero => left; exact hl1
        | succ f2 =>
          rw [searchLoop]
          dsimp only
          split
          case isFalse => left; exact hl1
          case isTrue =>
            rcases searchStep_locs_rounds_one provider role min_jobs b _ hr1 hk1 with
              hcase | ⟨bb, hb, hnotin, heq⟩
            · split
              case isFalse =>
                left
                rw [hcase, hl1]
              case isTrue =>
                left
                rw [searchLoop_locs_of_rounds_ge_two provider role min_jobs b f2 _
                  (by rw [searchStep_fst_rounds, hr1])]
                rw [hcase, hl1]
            · right
              refine ⟨bb, hb, by rw [hl1] at hnotin; exact hnotin, ?_⟩
              split
              case isFalse =>
                rw [heq, hl1]
              case isTrue =>
                rw [searchLoop_locs_of_rounds_ge_two provider role min_jobs b f2 _
                  (by rw [searchStep_fst_rounds, hr1])]
                rw [heq, hl1]

/-- Claim C6: the broaden target is appended exactly when round 2 has just
completed short of `min_jobs` with a (truthy, i.e. non-empty) target not
already among the tracked locations — an iff at the loop-body level — and at
the whole-run level the location list either stays the normalized input or
gains the target exactly once at its end (the final location list has no
duplicates, so the target is never added twice). -/
theorem C6_broaden_exactly_after_round_two :
    (∀ (provider : String → ℕ → List Job) (role : String) (min_jobs : ℕ)
        (broaden : Option String) (st : SearchState) (b2 : String),
      (searchStep provider role min_jobs broaden st).1.locs = st.locs ++ [b2]
      ↔ broaden = some b2 ∧ b2 ≠ "" ∧ st.rounds + 1 = 2
        ∧ (runRound provider role min_jobs st.locs
            { st with rounds := st.rounds + 1 }).collected.length < min_jobs
        ∧ b2 ∉ st.starts.map Prod.fst)
    ∧ (∀ (provider : String → ℕ → List Job) (role : String) (locations : List String)
        (min_jobs : ℕ) (broaden : Option String),
      (searchFinalState provider role locations min_jobs broaden).locs
          = dedupStrings locations
      ∨ ∃ b2, broaden = some b2 ∧ b2 ∉ dedupStrings locations
          ∧ (searchFinalState provider role locations min_jobs broaden).locs
              = dedupStrings locations ++ [b2])
    ∧ (∀ (provider : String → ℕ → List Job) (role : String) (locations : List String)
        (min_jobs : ℕ) (broaden : Option String),
      ((searchFinalState provider role locations min_jobs broaden).locs).Nodup) := by
  refine ⟨?_, ?_, ?_⟩
  · intro provider role min_jobs broaden st b2
    exact searchStep_broaden_iff provider role min_jobs broaden st b2
  · intro provider role locations min_jobs broaden
    exact searchLoop_broaden_cases provider role min_jobs broaden (initState locations)
      rfl (initState_keys locations) hard_cap_rounds
  · intro provider role locations min_jobs broaden
    rcases searchLoop_broaden_cases provider role min_jobs broaden (initState locations)
      rfl (initState_keys locations) hard_cap_rounds with h | ⟨b2, _, hnot, heq⟩
    · rw [show (searchFinalState provider role locations min_jobs broaden).locs
          = dedupStrings locations from h]
      exact dedupStringsGo_nodup locations []
    · rw [show (searchFinalState provider role locations min_jobs broaden).locs
          = dedupStrings locations ++ [b2] from heq]
      refine (dedupStringsGo_nodup locations []).append (List.nodup_singleton b2) ?_
      intro a ha hb
      rw [List.mem_singleton] at hb
      subst hb
      exact hnot ha

end Jobfinder
